import Mathlib

/-!
Verification of `calculate-csp-hashes.py` (repository `warmthly`).

The script scans a tree of HTML documents, extracts inline `<script>` and
`<style>` regions with the regexes `<script[^>]*>([\s\S]*?)</script>` and
`<style[^>]*>([\s\S]*?)</style>` (both `re.IGNORECASE`), hashes the stripped
inner content with SHA-256, formats each hash as a single-quoted
`'sha256-<base64>'` token, aggregates the tokens of all files into two
deduplicated sets and renders them sorted.

Shallow embedding conventions:
* document text and all strings are `List Char` (`Text`);
* bytes are `Nat` values below 256;
* machine words of SHA-256 are `Nat` reduced modulo `2 ^ 32`;
* the file system seen by `os.walk` is an inductive tree `FSTree`;
* one `print(x)` call of the script is one `Text` element of an output list;
* case-insensitive regex literal matching is modelled by ASCII lowering,
  which agrees with Python on every ASCII pattern character.
-/

/-- Document text and every other string of the script: a list of characters. -/
abbrev Text := List Char

/-! ## Small text utilities -/

/-- Python whitespace stripped by `str.strip()`, restricted to ASCII. -/
def pySpace (c : Char) : Bool :=
  c = ' ' || c = '\t' || c = '\n' || c = '\r' || c = Char.ofNat 11 || c = Char.ofNat 12

/-- `str.strip()`: remove leading and trailing whitespace. -/
def pyStrip (s : Text) : Text :=
  ((s.dropWhile pySpace).reverse.dropWhile pySpace).reverse

/-- Case-sensitive prefix test (`startsWith` on raw characters). -/
def startsWithT : Text → Text → Bool
  | [], _ => true
  | _ :: _, [] => false
  | p :: ps, c :: cs => p = c && startsWithT ps cs

/-- Python's `needle in haystack`: case-sensitive substring containment. -/
def containsSub (needle : Text) : Text → Bool
  | [] => startsWithT needle []
  | c :: cs => startsWithT needle (c :: cs) || containsSub needle cs

/-- Case-insensitive prefix test against an (already lowercase) ASCII pattern,
    modelling `re.IGNORECASE` literal matching. -/
def startsWithCI : Text → Text → Bool
  | [], _ => true
  | _ :: _, [] => false
  | p :: ps, c :: cs => p = c.toLower && startsWithCI ps cs

/-! ## Regex region extraction

`re.finditer(r'<tag[^>]*>([\s\S]*?)</tag>', content, re.IGNORECASE)` scans
left to right.  At the first position where the literal `<tag` matches
(case-insensitively), `[^>]*` runs greedily to the first later `'>'` and
`([\s\S]*?)` runs lazily to the first later closing literal `</tag>`.
If the `'>'` or the closing literal is missing, no later start position can
complete a match either (both searches only move right), so the scan ends.
After a successful match the scan resumes right after the closing literal. -/

/-- Split at the first (ASCII-case-insensitive) occurrence of `pat`:
    returns the part before it, the matched slice itself (original case),
    and the remainder after it. -/
def splitAtCI (pat : Text) : Text → Option (Text × Text × Text)
  | [] => none
  | c :: cs =>
    if startsWithCI pat (c :: cs) then
      some ([], (c :: cs).take pat.length, (c :: cs).drop pat.length)
    else
      match splitAtCI pat cs with
      | none => none
      | some (pre, m, rest) => some (c :: pre, m, rest)

/-- Split at the first `'>'`: returns the prefix up to and including the
    `'>'`, and the remainder after it. -/
def splitAtGt : Text → Option (Text × Text)
  | [] => none
  | c :: cs =>
    if c = '>' then some ([c], cs)
    else
      match splitAtGt cs with
      | none => none
      | some (pre, rest) => some (c :: pre, rest)

/-- One regex match: the opening tag slice `<tag ...>`, the lazily captured
    group 1, and the closing tag slice. -/
structure Region where
  openTag : Text
  content : Text
  closeTag : Text
deriving DecidableEq, Repr

/-- `match.group(0)`: the full matched slice. -/
def Region.group0 (m : Region) : Text := m.openTag ++ m.content ++ m.closeTag

theorem startsWithCI_length {pat s : Text} (h : startsWithCI pat s = true) :
    pat.length ≤ s.length := by
  induction pat generalizing s with
  | nil => simp
  | cons p ps ih =>
    cases s with
    | nil => simp [startsWithCI] at h
    | cons c cs =>
      simp only [startsWithCI, Bool.and_eq_true] at h
      simpa [List.length_cons, Nat.succ_le_succ_iff] using ih h.2

theorem splitAtCI_lengths {pat s pre m rest : Text}
    (h : splitAtCI pat s = some (pre, m, rest)) :
    s.length = pre.length + m.length + rest.length ∧ m.length = pat.length := by
  induction s generalizing pre m rest with
  | nil => simp [splitAtCI] at h
  | cons c cs ih =>
    by_cases hs : startsWithCI pat (c :: cs) = true
    · have hlen := startsWithCI_length hs
      simp only [List.length_cons] at hlen
      simp [splitAtCI, hs] at h
      obtain ⟨h1, h2, h3⟩ := h
      subst h1 h2 h3
      simp only [List.length_take, List.length_drop, List.length_nil, List.length_cons]
      omega
    · cases hrec : splitAtCI pat cs with
      | none => simp [splitAtCI, hs, hrec] at h
      | some val =>
        obtain ⟨pre', m', rest'⟩ := val
        simp [splitAtCI, hs, hrec] at h
        obtain ⟨h1, h2, h3⟩ := h
        subst h1 h2 h3
        obtain ⟨e1, e2⟩ := ih hrec
        simp only [List.length_cons]
        omega

theorem splitAtGt_lengths {s pre rest : Text}
    (h : splitAtGt s = some (pre, rest)) :
    s.length = pre.length + rest.length ∧ 1 ≤ pre.length := by
  induction s generalizing pre rest with
  | nil => simp [splitAtGt] at h
  | cons c cs ih =>
    by_cases hc : c = '>'
    · simp [splitAtGt, hc] at h
      obtain ⟨h1, h2⟩ := h
      subst h1 h2
      simp only [List.length_cons, List.length_nil]
      omega
    · cases hrec : splitAtGt cs with
      | none => simp [splitAtGt, hc, hrec] at h
      | some val =>
        obtain ⟨pre', rest'⟩ := val
        simp [splitAtGt, hc, hrec] at h
        obtain ⟨h1, h2⟩ := h
        subst h1 h2
        obtain ⟨e1, e2⟩ := ih hrec
        simp only [List.length_cons]
        omega

/-- One scan step per fuel unit; structural recursion on the fuel keeps the
    function kernel-reducible.  By `splitAtCI_lengths` and `splitAtGt_lengths`
    every produced region consumes at least 17 characters of the remaining
    text, so fuel `s.length` (as passed by `findRegions`) never runs out. -/
def findRegionsGo (openPat closePat : Text) : Nat → Text → List Region
  | 0, _ => []
  | fuel + 1, s =>
    match splitAtCI openPat s with
    | none => []
    | some (_, om, r1) =>
      match splitAtGt r1 with
      | none => []
      | some (tagRest, r2) =>
        match splitAtCI closePat r2 with
        | none => []
        | some (body, cm, r3) =>
          { openTag := om ++ tagRest, content := body, closeTag := cm } ::
            findRegionsGo openPat closePat fuel r3

/-- All successive non-overlapping matches of
    `<tag[^>]*>([\s\S]*?)</tag>` (case-insensitive), in text order.
    `openPat` is the lowercase literal `<tag`, `closePat` is `</tag>`. -/
def findRegions (openPat closePat : Text) (s : Text) : List Region :=
  findRegionsGo openPat closePat s.length s

/-- The script regions of a document (`script_pattern` matches). -/
def scriptRegions (content : Text) : List Region :=
  findRegions "<script".data "</script>".data content

/-- The style regions of a document (`style_pattern` matches). -/
def styleRegions (content : Text) : List Region :=
  findRegions "<style".data "</style>".data content

/-! ## UTF-8 encoding (`str.encode('utf-8')`) -/

/-- UTF-8 bytes of one Unicode code point. -/
def utf8Char (c : Char) : List Nat :=
  let n := c.toNat
  if n < 128 then [n]
  else if n < 2048 then [192 + n / 64, 128 + n % 64]
  else if n < 65536 then [224 + n / 4096, 128 + n / 64 % 64, 128 + n % 64]
  else [240 + n / 262144, 128 + n / 4096 % 64, 128 + n / 64 % 64, 128 + n % 64]

/-- UTF-8 bytes of a string. -/
def utf8Encode (s : Text) : List Nat := s.flatMap utf8Char

/-! ## SHA-256 (FIPS 180-4), over `Nat` words reduced modulo `2 ^ 32` -/

/-- Truncation to a 32-bit word. -/
def w32 (n : Nat) : Nat := n % 4294967296

/-- Right rotation of a 32-bit word by `k` bits. -/
def rotr (k n : Nat) : Nat := w32 (n / 2 ^ k + n % 2 ^ k * 2 ^ (32 - k))

/-- Bitwise complement of a 32-bit word. -/
def compl32 (n : Nat) : Nat := Nat.xor n 4294967295

def ch32 (x y z : Nat) : Nat := Nat.xor (Nat.land x y) (Nat.land (compl32 x) z)

def maj32 (x y z : Nat) : Nat :=
  Nat.xor (Nat.xor (Nat.land x y) (Nat.land x z)) (Nat.land y z)

def bigSigma0 (x : Nat) : Nat := Nat.xor (Nat.xor (rotr 2 x) (rotr 13 x)) (rotr 22 x)
def bigSigma1 (x : Nat) : Nat := Nat.xor (Nat.xor (rotr 6 x) (rotr 11 x)) (rotr 25 x)
def smallSigma0 (x : Nat) : Nat := Nat.xor (Nat.xor (rotr 7 x) (rotr 18 x)) (x / 2 ^ 3)
def smallSigma1 (x : Nat) : Nat := Nat.xor (Nat.xor (rotr 17 x) (rotr 19 x)) (x / 2 ^ 10)

/-- The 64 SHA-256 round constants. -/
def shaK : List Nat :=
  [1116352408, 1899447441, 3049323471, 3921009573, 961987163,
   1508970993, 2453635748, 2870763221, 3624381080, 310598401,
   607225278, 1426881987, 1925078388, 2162078206, 2614888103,
   3248222580, 3835390401, 4022224774, 264347078, 604807628,
   770255983, 1249150122, 1555081692, 1996064986, 2554220882,
   2821834349, 2952996808, 3210313671, 3336571891, 3584528711,
   113926993, 338241895, 666307205, 773529912, 1294757372,
   1396182291, 1695183700, 1986661051, 2177026350, 2456956037,
   2730485921, 2820302411, 3259730800, 3345764771, 3516065817,
   3600352804, 4094571909, 275423344, 430227734, 506948616,
   659060556, 883997877, 958139571, 1322822218, 1537002063,
   1747873779, 1955562222, 2024104815, 2227730452, 2361852424,
   2428436474, 2756734187, 3204031479, 3329325298]

/-- The eight 32-bit working variables of the compression function. -/
structure Hash8 where
  a : Nat
  b : Nat
  c : Nat
  d : Nat
  e : Nat
  f : Nat
  g : Nat
  hh : Nat

/-- The SHA-256 initial hash value. -/
def shaH0 : Hash8 :=
  ⟨1779033703, 3144134277, 1013904242, 2773480762,
   1359893119, 2600822924, 528734635, 1541459225⟩

/-- Message padding: append `0x80`, zeros to 56 mod 64, and the 64-bit
    big-endian bit length. -/
def shaPad (msg : List Nat) : List Nat :=
  let bitLen := 8 * msg.length
  let zeros := (120 - (msg.length + 1) % 64) % 64
  msg ++ [128] ++ List.replicate zeros 0 ++
    [bitLen / 2 ^ 56 % 256, bitLen / 2 ^ 48 % 256, bitLen / 2 ^ 40 % 256,
     bitLen / 2 ^ 32 % 256, bitLen / 2 ^ 24 % 256, bitLen / 2 ^ 16 % 256,
     bitLen / 2 ^ 8 % 256, bitLen % 256]

/-- Block splitting with one block per fuel unit; structural recursion on
    the fuel keeps the function kernel-reducible.  Each step consumes 64
    bytes, so fuel `l.length` (as passed by `chunk64`) never runs out. -/
def chunk64Go : Nat → List Nat → List (List Nat)
  | 0, _ => []
  | fuel + 1, l =>
    match l with
    | [] => []
    | x :: xs => (x :: xs).take 64 :: chunk64Go fuel ((x :: xs).drop 64)

/-- Split a padded message into 64-byte blocks. -/
def chunk64 (l : List Nat) : List (List Nat) :=
  chunk64Go l.length l

/-- Big-endian 32-bit words of a 64-byte block. -/
def toWords : List Nat → List Nat
  | b0 :: b1 :: b2 :: b3 :: rest =>
    (b0 * 16777216 + b1 * 65536 + b2 * 256 + b3) :: toWords rest
  | _ => []

/-- One extension step of the message schedule: append
    `σ1(w[t-2]) + w[t-7] + σ0(w[t-15]) + w[t-16]`. -/
def extendStep (w : List Nat) : List Nat :=
  w ++ [w32 (smallSigma1 (w.getD (w.length - 2) 0) + w.getD (w.length - 7) 0 +
             smallSigma0 (w.getD (w.length - 15) 0) + w.getD (w.length - 16) 0)]

/-- Extend the 16 block words to the 64-entry message schedule. -/
def schedule (w : List Nat) : Nat → List Nat
  | 0 => w
  | n + 1 => schedule (extendStep w) n

/-- One compression round with schedule word `wk.1` and constant `wk.2`. -/
def shaRound (s : Hash8) (wk : Nat × Nat) : Hash8 :=
  let t1 := w32 (s.hh + bigSigma1 s.e + ch32 s.e s.f s.g + wk.2 + wk.1)
  let t2 := w32 (bigSigma0 s.a + maj32 s.a s.b s.c)
  ⟨w32 (t1 + t2), s.a, s.b, s.c, w32 (s.d + t1), s.e, s.f, s.g⟩

/-- Compress one 64-byte block into the running hash value. -/
def compressBlock (h : Hash8) (block : List Nat) : Hash8 :=
  let w := schedule (toWords block) 48
  let s := (w.zip shaK).foldl shaRound h
  ⟨w32 (h.a + s.a), w32 (h.b + s.b), w32 (h.c + s.c), w32 (h.d + s.d),
   w32 (h.e + s.e), w32 (h.f + s.f), w32 (h.g + s.g), w32 (h.hh + s.hh)⟩

/-- Big-endian bytes of a 32-bit word. -/
def wordBytes (w : Nat) : List Nat :=
  [w / 16777216 % 256, w / 65536 % 256, w / 256 % 256, w % 256]

/-- SHA-256: digest (32 bytes) of a byte string. -/
def sha256 (msg : List Nat) : List Nat :=
  let h := (chunk64 (shaPad msg)).foldl compressBlock shaH0
  wordBytes h.a ++ wordBytes h.b ++ wordBytes h.c ++ wordBytes h.d ++
    wordBytes h.e ++ wordBytes h.f ++ wordBytes h.g ++ wordBytes h.hh

/-! ## Base64 (`base64.b64encode`, standard alphabet, padded) -/

/-- The standard base64 alphabet. -/
def b64chars : Text :=
  "ABCDEFGHIJKLMNOPQRSTUVWXYZabcdefghijklmnopqrstuvwxyz0123456789+/".data

/-- The alphabet character of a 6-bit value. -/
def b64char (n : Nat) : Char := b64chars.getD n 'A'

/-- Standard padded base64 encoding of a byte string. -/
def b64encode : List Nat → Text
  | [] => []
  | [b0] => [b64char (b0 / 4), b64char (b0 % 4 * 16), '=', '=']
  | [b0, b1] => [b64char (b0 / 4), b64char (b0 % 4 * 16 + b1 / 16),
                 b64char (b1 % 16 * 4), '=']
  | b0 :: b1 :: b2 :: rest =>
    b64char (b0 / 4) :: b64char (b0 % 4 * 16 + b1 / 16) ::
      b64char (b1 % 16 * 4 + b2 / 64) :: b64char (b2 % 64) :: b64encode rest

/-! ## The hash encoder of the script -/

/-- `calculate_hash`: base64 of the SHA-256 digest of the UTF-8 bytes. -/
def calculate_hash (content : Text) : Text :=
  b64encode (sha256 (utf8Encode content))

/-- The token `f"'sha256-{hash_value}'"` built in `process_html_file`. -/
def hashToken (content : Text) : Text :=
  '\'' :: ("sha256-".data ++ calculate_hash content ++ ['\''])

/-! ## `process_html_file` -/

/-- The literal `'src='` tested by `'src=' not in script_tag`. -/
def srcLit : Text := "src=".data

/-- Argument of the `print` for a newly seen script hash. -/
def scriptDiagLine (path hashValue : Text) : Text :=
  "Script hash for ".data ++ path ++ ": sha256-".data ++ hashValue

/-- Argument of the `print` for a newly seen style hash. -/
def styleDiagLine (path hashValue : Text) : Text :=
  "Style hash for ".data ++ path ++ ": sha256-".data ++ hashValue

/-- Argument of the `print` on a failed file read. -/
def errorLine (path err : Text) : Text :=
  "Error reading ".data ++ path ++ ": ".data ++ err

/-- Result of `process_html_file` plus the lines it printed, in order. -/
structure ProcOut where
  scripts : List Text
  styles : List Text
  outLines : List Text

/-- The guard `if script_content and 'src=' not in script_tag` of the
    script loop: non-empty stripped content, and the case-sensitive
    substring `src=` absent from the whole `match.group(0)` slice. -/
def scriptKeep (m : Region) : Bool :=
  !(pyStrip m.content).isEmpty && !containsSub srcLit m.group0

/-- The guard `if style_content` of the style loop. -/
def styleKeep (m : Region) : Bool :=
  !(pyStrip m.content).isEmpty

/-- One iteration of the script loop: the pair carries
    (`hashes['scripts']`, printed lines so far). -/
def scriptStep (path : Text) (acc : List Text × List Text) (m : Region) :
    List Text × List Text :=
  if scriptKeep m then
    let hash_string := hashToken (pyStrip m.content)
    if hash_string ∈ acc.1 then acc
    else (acc.1 ++ [hash_string],
          acc.2 ++ [scriptDiagLine path (calculate_hash (pyStrip m.content))])
  else acc

/-- One iteration of the style loop. -/
def styleStep (path : Text) (acc : List Text × List Text) (m : Region) :
    List Text × List Text :=
  if styleKeep m then
    let hash_string := hashToken (pyStrip m.content)
    if hash_string ∈ acc.1 then acc
    else (acc.1 ++ [hash_string],
          acc.2 ++ [styleDiagLine path (calculate_hash (pyStrip m.content))])
  else acc

/-- The body of `process_html_file` after a successful read. -/
def processText (path content : Text) : ProcOut :=
  let s := (scriptRegions content).foldl (scriptStep path) ([], [])
  let t := (styleRegions content).foldl (styleStep path) ([], [])
  ⟨s.1, t.1, s.2 ++ t.2⟩

/-- A candidate file: its path and the outcome of reading it
    (`Except.error e` models an `open`/decode failure with message `e`). -/
structure FileInput where
  path : Text
  readResult : Except Text Text

/-- `process_html_file`: on a read failure it prints the error line and
    returns the initial empty `hashes` dict. -/
def process_html_file (f : FileInput) : ProcOut :=
  match f.readResult with
  | .error e => ⟨[], [], [errorLine f.path e]⟩
  | .ok content => processText f.path content

/-! ## Aggregation and the final report (`main`)

Python's `set.update` only adds unseen elements; since the sets are read
only through membership and through `sorted(...)`, they are modelled as
duplicate-free lists in first-seen order. -/

/-- Add the unseen elements of `ts` to the accumulator. -/
def addNew (acc ts : List Text) : List Text :=
  ts.foldl (fun a t => if t ∈ a then a else a ++ [t]) acc

/-- `all_script_hashes` at the end of the file loop. -/
def aggScripts (files : List FileInput) : List Text :=
  files.foldl (fun acc f => addNew acc (process_html_file f).scripts) []

/-- `all_style_hashes` at the end of the file loop. -/
def aggStyles (files : List FileInput) : List Text :=
  files.foldl (fun acc f => addNew acc (process_html_file f).styles) []

/-- Python string comparison: lexicographic on code points, with a proper
    prefix ordered first. -/
def lexLe : Text → Text → Bool
  | [], _ => true
  | _ :: _, [] => false
  | a :: as, b :: bs => a.toNat < b.toNat || (a.toNat = b.toNat && lexLe as bs)

/-- Insert into a sorted list (`sorted` is modelled as insertion sort; on
    the duplicate-free aggregate its result is the unique `lexLe`-sorted
    enumeration, which is what `sorted(set)` returns). -/
def insertTok (t : Text) : List Text → List Text
  | [] => [t]
  | x :: xs => if lexLe t x then t :: x :: xs else x :: insertTok t xs

/-- `sorted(...)` with Python's string order. -/
def sortTokens : List Text → List Text
  | [] => []
  | x :: xs => insertTok x (sortTokens xs)

/-- `' '.join(...)`. -/
def joinSpace : List Text → Text
  | [] => []
  | [t] => t
  | t :: t' :: rest => t ++ ' ' :: joinSpace (t' :: rest)

/-- The opening banner print of `main`. -/
def introLine : Text :=
  "Calculating CSP hashes for inline scripts and styles...\n".data

/-- The five report prints at the end of `main`. -/
def reportLines (files : List FileInput) : List Text :=
  ["\n=== CSP Configuration ===".data,
   "\nscript-src hashes:".data,
   joinSpace (sortTokens (aggScripts files)),
   "\nstyle-src hashes:".data,
   joinSpace (sortTokens (aggStyles files)),
   []]

/-- `main` on a given sequence of candidate files: every printed line of
    the whole run, in order. -/
def mainRun (files : List FileInput) : List Text :=
  introLine :: ((files.map (fun f => (process_html_file f).outLines)).flatten ++
    reportLines files)

/-! ## `find_html_files` (`os.walk` with in-place dir pruning) -/

/-- The entry listing of one directory as seen by `os.walk`, in directory
    order: a first-order sequence of file entries and subdirectory entries
    (each subdirectory carrying its own listing). -/
inductive FSEntries where
  | nil
  | file (name : Text) (rest : FSEntries)
  | dir (name : Text) (children : FSEntries) (rest : FSEntries)

/-- The filter `not d.startswith('.') and d != 'node_modules'` applied in
    place to `dirs`. -/
def keepDir (name : Text) : Bool :=
  !startsWithT ".".data name && name ≠ "node_modules".data

/-- `os.path.join` for the paths built by the walk. -/
def joinPath (root name : Text) : Text := root ++ '/' :: name

/-- `file.endswith('.html')`. -/
def isHtmlName (n : Text) : Bool := ".html".data.isSuffixOf n

/-- The `.html` paths among the plain files of one listing, in order
    (the `for file in files` loop of one `os.walk` step). -/
def walkFiles (path : Text) : FSEntries → List Text
  | .nil => []
  | .file n rest =>
    (if isHtmlName n then [joinPath path n] else []) ++ walkFiles path rest
  | .dir _ _ rest => walkFiles path rest

/-- The paths contributed by descending into the kept subdirectories of one
    listing, in order (the recursion of `os.walk` after pruning `dirs`). -/
def walkDirs (path : Text) : FSEntries → List Text
  | .nil => []
  | .file _ rest => walkDirs path rest
  | .dir n c rest =>
    (if keepDir n then
       walkFiles (joinPath path n) c ++ walkDirs (joinPath path n) c
     else []) ++ walkDirs path rest

/-- `find_html_files(directory)`: `os.walk` yields the root's files first,
    then each kept subtree in order; the root directory itself is walked
    unconditionally (the pruning filter only ever applies to `dirs`
    entries, never to the walk's starting directory). -/
def find_html_files (directory : Text) (entries : FSEntries) : List Text :=
  walkFiles directory entries ++ walkDirs directory entries

/-! ## Helper lemmas: deduplicating accumulation -/

theorem addNew_nil (acc : List Text) : addNew acc [] = acc := rfl

theorem addNew_cons (acc : List Text) (u : Text) (us : List Text) :
    addNew acc (u :: us) = addNew (if u ∈ acc then acc else acc ++ [u]) us := rfl

theorem mem_addNew {t : Text} (acc ts : List Text) :
    t ∈ addNew acc ts ↔ t ∈ acc ∨ t ∈ ts := by
  induction ts generalizing acc with
  | nil => simp [addNew]
  | cons u us ih =>
    rw [addNew_cons, ih]
    by_cases hu : u ∈ acc
    · simp only [hu, if_true, List.mem_cons]
      constructor
      · rintro (h | h)
        · exact Or.inl h
        · exact Or.inr (Or.inr h)
      · rintro (h | h | h)
        · exact Or.inl h
        · exact Or.inl (h ▸ hu)
        · exact Or.inr h
    · simp only [hu, if_false, List.mem_append, List.mem_singleton, List.mem_cons]
      tauto

theorem addNew_nodup (acc ts : List Text) (h : acc.Nodup) : (addNew acc ts).Nodup := by
  induction ts generalizing acc with
  | nil => exact h
  | cons u us ih =>
    rw [addNew_cons]
    by_cases hu : u ∈ acc
    · simpa [hu] using ih acc h
    · refine ih _ ?_
      simp only [hu, if_false]
      exact List.nodup_append.mpr ⟨h, List.nodup_singleton u,
        fun a ha => by simp; rintro rfl; exact hu ha⟩

/-! ## Helper lemmas: the two extraction loops -/

theorem scriptFold_fst (path : Text) (ms : List Region) (acc : List Text × List Text) :
    (ms.foldl (scriptStep path) acc).1 =
      addNew acc.1 ((ms.filter scriptKeep).map (fun m => hashToken (pyStrip m.content))) := by
  induction ms generalizing acc with
  | nil => simp [addNew]
  | cons m ms ih =>
    simp only [List.foldl_cons]
    by_cases hk : scriptKeep m = true
    · simp only [List.filter_cons, hk, if_true, List.map_cons]
      rw [addNew_cons, ih]
      congr 1
      by_cases hm : hashToken (pyStrip m.content) ∈ acc.1 <;>
        simp [scriptStep, hk, hm]
    · simp only [List.filter_cons, hk]
      rw [ih]
      congr 1
      simp [scriptStep, hk]

theorem styleFold_fst (path : Text) (ms : List Region) (acc : List Text × List Text) :
    (ms.foldl (styleStep path) acc).1 =
      addNew acc.1 ((ms.filter styleKeep).map (fun m => hashToken (pyStrip m.content))) := by
  induction ms generalizing acc with
  | nil => simp [addNew]
  | cons m ms ih =>
    simp only [List.foldl_cons]
    by_cases hk : styleKeep m = true
    · simp only [List.filter_cons, hk, if_true, List.map_cons]
      rw [addNew_cons, ih]
      congr 1
      by_cases hm : hashToken (pyStrip m.content) ∈ acc.1 <;>
        simp [styleStep, hk, hm]
    · simp only [List.filter_cons, hk]
      rw [ih]
      congr 1
      simp [styleStep, hk]

theorem scriptFold_pair (path : Text) (ms : List Region) :
    ∀ cs : List Text,
      ∃ ds : List Text,
        ms.foldl (scriptStep path)
            (cs.map hashToken, cs.map (fun c => scriptDiagLine path (calculate_hash c))) =
          (ds.map hashToken, ds.map (fun c => scriptDiagLine path (calculate_hash c))) := by
  induction ms with
  | nil => exact fun cs => ⟨cs, rfl⟩
  | cons m ms ih =>
    intro cs
    simp only [List.foldl_cons]
    by_cases hk : scriptKeep m = true
    · by_cases hm : hashToken (pyStrip m.content) ∈ cs.map hashToken
      · simpa [scriptStep, hk, hm] using ih cs
      · have hstep : scriptStep path
            (cs.map hashToken, cs.map (fun c => scriptDiagLine path (calculate_hash c))) m =
            ((cs ++ [pyStrip m.content]).map hashToken,
             (cs ++ [pyStrip m.content]).map (fun c => scriptDiagLine path (calculate_hash c))) := by
          simp [scriptStep, hk, hm]
        rw [hstep]
        exact ih (cs ++ [pyStrip m.content])
    · simpa [scriptStep, hk] using ih cs

theorem styleFold_pair (path : Text) (ms : List Region) :
    ∀ cs : List Text,
      ∃ ds : List Text,
        ms.foldl (styleStep path)
            (cs.map hashToken, cs.map (fun c => styleDiagLine path (calculate_hash c))) =
          (ds.map hashToken, ds.map (fun c => styleDiagLine path (calculate_hash c))) := by
  induction ms with
  | nil => exact fun cs => ⟨cs, rfl⟩
  | cons m ms ih =>
    intro cs
    simp only [List.foldl_cons]
    by_cases hk : styleKeep m = true
    · by_cases hm : hashToken (pyStrip m.content) ∈ cs.map hashToken
      · simpa [styleStep, hk, hm] using ih cs
      · have hstep : styleStep path
            (cs.map hashToken, cs.map (fun c => styleDiagLine path (calculate_hash c))) m =
            ((cs ++ [pyStrip m.content]).map hashToken,
             (cs ++ [pyStrip m.content]).map (fun c => styleDiagLine path (calculate_hash c))) := by
          simp [styleStep, hk, hm]
        rw [hstep]
        exact ih (cs ++ [pyStrip m.content])
    · simpa [styleStep, hk] using ih cs

/-! ## Helper lemmas: `processText` -/

theorem processText_scripts (path content : Text) :
    (processText path content).scripts =
      addNew [] (((scriptRegions content).filter scriptKeep).map
        (fun m => hashToken (pyStrip m.content))) := by
  simpa [processText] using scriptFold_fst path (scriptRegions content) ([], [])

theorem processText_styles (path content : Text) :
    (processText path content).styles =
      addNew [] (((styleRegions content).filter styleKeep).map
        (fun m => hashToken (pyStrip m.content))) := by
  simpa [processText] using styleFold_fst path (styleRegions content) ([], [])

theorem mem_processText_scripts {t path content : Text} :
    t ∈ (processText path content).scripts ↔
      ∃ m, m ∈ scriptRegions content ∧ scriptKeep m = true ∧
        t = hashToken (pyStrip m.content) := by
  rw [processText_scripts, mem_addNew]
  simp only [List.mem_map, List.mem_filter, List.not_mem_nil, false_or]
  constructor
  · rintro ⟨m, ⟨hm, hk⟩, rfl⟩
    exact ⟨m, hm, hk, rfl⟩
  · rintro ⟨m, hm, hk, rfl⟩
    exact ⟨m, ⟨hm, hk⟩, rfl⟩

theorem mem_processText_styles {t path content : Text} :
    t ∈ (processText path content).styles ↔
      ∃ m, m ∈ styleRegions content ∧ styleKeep m = true ∧
        t = hashToken (pyStrip m.content) := by
  rw [processText_styles, mem_addNew]
  simp only [List.mem_map, List.mem_filter, List.not_mem_nil, false_or]
  constructor
  · rintro ⟨m, ⟨hm, hk⟩, rfl⟩
    exact ⟨m, hm, hk, rfl⟩
  · rintro ⟨m, hm, hk, rfl⟩
    exact ⟨m, ⟨hm, hk⟩, rfl⟩

theorem processText_scripts_nodup (path content : Text) :
    (processText path content).scripts.Nodup := by
  rw [processText_scripts]
  exact addNew_nodup _ _ List.nodup_nil

theorem processText_styles_nodup (path content : Text) :
    (processText path content).styles.Nodup := by
  rw [processText_styles]
  exact addNew_nodup _ _ List.nodup_nil

/-! ## Helper lemmas: the aggregated sets of `main` -/

theorem aggScripts_go_mem {t : Text} (files : List FileInput) (acc : List Text) :
    t ∈ files.foldl (fun acc f => addNew acc (process_html_file f).scripts) acc ↔
      t ∈ acc ∨ ∃ f ∈ files, t ∈ (process_html_file f).scripts := by
  induction files generalizing acc with
  | nil => simp
  | cons f fs ih =>
    simp only [List.foldl_cons]
    rw [ih, mem_addNew]
    simp only [List.mem_cons]
    constructor
    · rintro ((h | h) | ⟨g, hg, h⟩)
      · exact Or.inl h
      · exact Or.inr ⟨f, Or.inl rfl, h⟩
      · exact Or.inr ⟨g, Or.inr hg, h⟩
    · rintro (h | ⟨g, (rfl | hg), h⟩)
      · exact Or.inl (Or.inl h)
      · exact Or.inl (Or.inr h)
      · exact Or.inr ⟨g, hg, h⟩

theorem aggStyles_go_mem {t : Text} (files : List FileInput) (acc : List Text) :
    t ∈ files.foldl (fun acc f => addNew acc (process_html_file f).styles) acc ↔
      t ∈ acc ∨ ∃ f ∈ files, t ∈ (process_html_file f).styles := by
  induction files generalizing acc with
  | nil => simp
  | cons f fs ih =>
    simp only [List.foldl_cons]
    rw [ih, mem_addNew]
    simp only [List.mem_cons]
    constructor
    · rintro ((h | h) | ⟨g, hg, h⟩)
      · exact Or.inl h
      · exact Or.inr ⟨f, Or.inl rfl, h⟩
      · exact Or.inr ⟨g, Or.inr hg, h⟩
    · rintro (h | ⟨g, (rfl | hg), h⟩)
      · exact Or.inl (Or.inl h)
      · exact Or.inl (Or.inr h)
      · exact Or.inr ⟨g, hg, h⟩

theorem mem_aggScripts {t : Text} (files : List FileInput) :
    t ∈ aggScripts files ↔ ∃ f ∈ files, t ∈ (process_html_file f).scripts := by
  rw [aggScripts, aggScripts_go_mem]
  simp

theorem mem_aggStyles {t : Text} (files : List FileInput) :
    t ∈ aggStyles files ↔ ∃ f ∈ files, t ∈ (process_html_file f).styles := by
  rw [aggStyles, aggStyles_go_mem]
  simp

theorem aggScripts_nodup (files : List FileInput) : (aggScripts files).Nodup := by
  rw [aggScripts]
  have go : ∀ (fs : List FileInput) (acc : List Text), acc.Nodup →
      (fs.foldl (fun acc f => addNew acc (process_html_file f).scripts) acc).Nodup := by
    intro fs
    induction fs with
    | nil => exact fun acc h => h
    | cons f fs ih => exact fun acc h => ih _ (addNew_nodup _ _ h)
  exact go files [] List.nodup_nil

theorem aggStyles_nodup (files : List FileInput) : (aggStyles files).Nodup := by
  rw [aggStyles]
  have go : ∀ (fs : List FileInput) (acc : List Text), acc.Nodup →
      (fs.foldl (fun acc f => addNew acc (process_html_file f).styles) acc).Nodup := by
    intro fs
    induction fs with
    | nil => exact fun acc h => h
    | cons f fs ih => exact fun acc h => ih _ (addNew_nodup _ _ h)
  exact go files [] List.nodup_nil

set_option maxRecDepth 40000

/-! ## Claim C1 (script `src=` exclusion) -/

/-- C1 counterexample: in `<script>a src= b</script>` the opening tag
    `<script>` contains no `src=` in any letter case and the inner content
    is non-empty after trimming, so the claim predicts the region is
    emitted; the code tests `match.group(0)` (which includes the inner
    content) and therefore emits no script token at all for this document. -/
theorem claim_C1_counterexample :
    scriptRegions "<script>a src= b</script>".data =
      [{ openTag := "<script>".data, content := "a src= b".data,
         closeTag := "</script>".data }] ∧
    containsSub srcLit ("<script>".data.map Char.toLower) = false ∧
    (pyStrip "a src= b".data).isEmpty = false ∧
    (processText "a.html".data "<script>a src= b</script>".data).scripts = [] ∧
    (processText "a.html".data "<script SRC='x.js'>hi</script>".data).scripts =
      [hashToken "hi".data] := by
  refine ⟨by decide, by decide, by decide, by decide, by decide⟩

/-- C1 (amended): a matched script region contributes a token exactly when
    its trimmed inner content is non-empty and the full matched slice
    `match.group(0)` — opening tag, inner content and closing tag — does
    not contain the substring `src=` case-sensitively; the opening tag
    alone is not what is tested, and an upper-case `SRC=` does not
    exclude a region. -/
theorem claim_C1_amended (path content t : Text) :
    t ∈ (processText path content).scripts ↔
      ∃ m, m ∈ scriptRegions content ∧ pyStrip m.content ≠ [] ∧
        containsSub srcLit m.group0 = false ∧
        t = hashToken (pyStrip m.content) := by
  rw [mem_processText_scripts]
  refine exists_congr fun m => ?_
  simp only [scriptKeep, Bool.and_eq_true, Bool.not_eq_true']
  constructor
  · rintro ⟨hm, ⟨he, hc⟩, ht⟩
    exact ⟨hm, by simpa [List.isEmpty_iff] using he, hc, ht⟩
  · rintro ⟨hm, he, hc, ht⟩
    exact ⟨hm, ⟨by simpa [List.isEmpty_iff] using he, hc⟩, ht⟩

/-! ## Claim C2 (hash token format and determinism) -/

/-- The token format prescribed by the specification: a single quote,
    `sha256-`, the padded standard base64 encoding of the SHA-256 digest
    of the UTF-8 bytes of the content, and a closing single quote. -/
def cspTokenFormat (content : Text) : Text :=
  ['\''] ++ "sha256-".data ++ b64encode (sha256 (utf8Encode content)) ++ ['\'']

/-- C2: the hash encoder returns exactly the specified
    `'sha256-<base64(sha256(utf8))>'` string, and encoding equal contents
    always yields equal tokens (the encoder is a pure function of the
    content). -/
theorem claim_C2_token_format (content : Text) :
    hashToken content = cspTokenFormat content ∧
    ∀ content', content = content' → hashToken content = hashToken content' := by
  constructor
  · simp [hashToken, cspTokenFormat, calculate_hash]
  · rintro _ rfl
    rfl

/-- C2 witness at `content = "x"`. -/
theorem claim_C2_token_format_witness :
    hashToken "x".data = cspTokenFormat "x".data ∧
    hashToken "x".data = hashToken "x".data :=
  ⟨(claim_C2_token_format "x".data).1,
   (claim_C2_token_format "x".data).2 "x".data rfl⟩

/-! ## Claim C6 (empty-after-trim exclusion; no `src=` rule for styles) -/

/-- C6: every emitted script or style token comes from a region whose
    trimmed inner content is non-empty (so a whitespace-only region
    contributes nothing), and a style region with non-empty trimmed
    content always contributes its token, whatever its opening tag —
    style regions have no `src=` exclusion. -/
theorem claim_C6_empty_and_style (path content : Text) :
    (∀ t ∈ (processText path content).scripts,
      ∃ m, m ∈ scriptRegions content ∧ pyStrip m.content ≠ [] ∧
        t = hashToken (pyStrip m.content)) ∧
    (∀ t ∈ (processText path content).styles,
      ∃ m, m ∈ styleRegions content ∧ pyStrip m.content ≠ [] ∧
        t = hashToken (pyStrip m.content)) ∧
    (∀ m ∈ styleRegions content, pyStrip m.content ≠ [] →
      hashToken (pyStrip m.content) ∈ (processText path content).styles) := by
  refine ⟨?_, ?_, ?_⟩
  · intro t ht
    obtain ⟨m, hm, hk, rfl⟩ := mem_processText_scripts.mp ht
    simp only [scriptKeep, Bool.and_eq_true, Bool.not_eq_true'] at hk
    exact ⟨m, hm, by simpa [List.isEmpty_iff] using hk.1, rfl⟩
  · intro t ht
    obtain ⟨m, hm, hk, rfl⟩ := mem_processText_styles.mp ht
    simp only [styleKeep, Bool.not_eq_true'] at hk
    exact ⟨m, hm, by simpa [List.isEmpty_iff] using hk, rfl⟩
  · intro m hm he
    exact mem_processText_styles.mpr
      ⟨m, hm, by simpa [styleKeep, List.isEmpty_iff] using he, rfl⟩

/-- C6 witness: in `<style x>ab</style>` the single style region has
    non-empty trimmed content, so its token is emitted even though the
    opening tag carries an attribute. -/
theorem claim_C6_empty_and_style_witness :
    hashToken (pyStrip "ab".data) ∈
      (processText "a.html".data "<style x>ab</style>".data).styles :=
  (claim_C6_empty_and_style "a.html".data "<style x>ab</style>".data).2.2
    { openTag := "<style x>".data, content := "ab".data, closeTag := "</style>".data }
    (by decide) (by decide)

/-! ## Claim C3 (aggregated sets deduplicate across documents) -/

/-- In a duplicate-free list every element occurs exactly once. -/
theorem nodup_occurrences {l : List Text} (h : l.Nodup) (t : Text) :
    (l.filter (fun x => x = t)).length = if t ∈ l then 1 else 0 := by
  induction l with
  | nil => simp
  | cons a l ih =>
    rw [List.nodup_cons] at h
    by_cases hat : a = t
    · subst hat
      simp [List.filter_cons, h.1, ih h.2]
    · have hta : ¬t = a := fun e => hat e.symm
      simp [List.filter_cons, hat, hta, ih h.2]

/-- C3: each aggregated per-kind collection holds every token at most once
    (one occurrence for members, zero otherwise), and holds a token exactly
    when some processed file emitted it — so byte-identical inline content,
    however often and in however many documents it appears, contributes
    exactly one element. -/
theorem claim_C3_dedup (files : List FileInput) :
    (∀ t, ((aggScripts files).filter (fun x => x = t)).length =
      if t ∈ aggScripts files then 1 else 0) ∧
    (∀ t, t ∈ aggScripts files ↔ ∃ f ∈ files, t ∈ (process_html_file f).scripts) ∧
    (∀ t, ((aggStyles files).filter (fun x => x = t)).length =
      if t ∈ aggStyles files then 1 else 0) ∧
    (∀ t, t ∈ aggStyles files ↔ ∃ f ∈ files, t ∈ (process_html_file f).styles) :=
  ⟨nodup_occurrences (aggScripts_nodup files),
   fun _ => mem_aggScripts files,
   nodup_occurrences (aggStyles_nodup files),
   fun _ => mem_aggStyles files⟩

/-! ## Claim C4 (diagnostic lines) -/

/-- Two documents with byte-identical inline script content. -/
def twinFiles : List FileInput :=
  [⟨"a".data, Except.ok "<script>x</script>".data⟩,
   ⟨"b".data, Except.ok "<script>x</script>".data⟩]

/-- C4 counterexample: the same inline script `x` appears in the two
    distinct documents `a` and `b`; the run prints a `Script hash for ...`
    diagnostic line twice — once per document — even though the aggregated
    set holds the token only once, contradicting the claim that a token
    seen in two documents produces only one diagnostic line. -/
theorem claim_C4_counterexample :
    (mainRun twinFiles).countP (fun l => startsWithT "Script hash for ".data l) = 2 ∧
    scriptDiagLine "a".data (calculate_hash "x".data) ∈ mainRun twinFiles ∧
    scriptDiagLine "b".data (calculate_hash "x".data) ∈ mainRun twinFiles ∧
    (aggScripts twinFiles).length = 1 := by
  decide

/-- C4 (amended): within one document each distinct token is announced by
    exactly one diagnostic line at its first sight — the emitted lines are
    in bijection with the document's deduplicated tokens — but the
    per-file diagnostic state is not shared across documents: the run
    output concatenates every document's own lines, so a token whose
    content appears in two distinct documents is announced once per
    document. -/
theorem claim_C4_amended (path content : Text) (files : List FileInput) :
    (∃ ds es : List Text,
      (processText path content).scripts = ds.map hashToken ∧
      (processText path content).styles = es.map hashToken ∧
      (processText path content).outLines =
        ds.map (fun c => scriptDiagLine path (calculate_hash c)) ++
        es.map (fun c => styleDiagLine path (calculate_hash c))) ∧
    (processText path content).scripts.Nodup ∧
    (processText path content).styles.Nodup ∧
    mainRun files = introLine ::
      ((files.map (fun f => (process_html_file f).outLines)).flatten ++
        reportLines files) := by
  refine ⟨?_, processText_scripts_nodup path content,
    processText_styles_nodup path content, rfl⟩
  obtain ⟨ds, hds⟩ := scriptFold_pair path (scriptRegions content) []
  obtain ⟨es, hes⟩ := styleFold_pair path (styleRegions content) []
  simp only [List.map_nil] at hds hes
  refine ⟨ds, es, ?_, ?_, ?_⟩
  · show ((scriptRegions content).foldl (scriptStep path) ([], [])).1 = _
    rw [hds]
  · show ((styleRegions content).foldl (styleStep path) ([], [])).1 = _
    rw [hes]
  · show ((scriptRegions content).foldl (scriptStep path) ([], [])).2 ++
      ((styleRegions content).foldl (styleStep path) ([], [])).2 = _
    rw [hds, hes]

/-! ## Claim C5 (sorted render) -/

theorem lexLe_total : ∀ a b : Text, lexLe a b = true ∨ lexLe b a = true := by
  intro a
  induction a with
  | nil => intro b; exact Or.inl rfl
  | cons x xs ih =>
    intro b
    cases b with
    | nil => exact Or.inr rfl
    | cons y ys =>
      simp only [lexLe, Bool.or_eq_true, Bool.and_eq_true, decide_eq_true_eq]
      rcases Nat.lt_trichotomy x.toNat y.toNat with h | h | h
      · exact Or.inl (Or.inl h)
      · rcases ih ys with h' | h'
        · exact Or.inl (Or.inr ⟨h, h'⟩)
        · exact Or.inr (Or.inr ⟨h.symm, h'⟩)
      · exact Or.inr (Or.inl h)

theorem lexLe_trans : ∀ a b c : Text,
    lexLe a b = true → lexLe b c = true → lexLe a c = true := by
  intro a
  induction a with
  | nil => intro b c _ _; rfl
  | cons x xs ih =>
    intro b c hab hbc
    cases b with
    | nil => simp [lexLe] at hab
    | cons y ys =>
      cases c with
      | nil => simp [lexLe] at hbc
      | cons z zs =>
        simp only [lexLe, Bool.or_eq_true, Bool.and_eq_true,
          decide_eq_true_eq] at hab hbc ⊢
        rcases hab with h1 | ⟨h1, h1'⟩ <;> rcases hbc with h2 | ⟨h2, h2'⟩
        · exact Or.inl (Nat.lt_trans h1 h2)
        · exact Or.inl (h2 ▸ h1)
        · exact Or.inl (h1 ▸ h2)
        · exact Or.inr ⟨h1.trans h2, ih ys zs h1' h2'⟩

theorem mem_insertTok {x t : Text} : ∀ {l : List Text},
    x ∈ insertTok t l ↔ x = t ∨ x ∈ l := by
  intro l
  induction l with
  | nil => simp [insertTok]
  | cons a l ih =>
    by_cases h : lexLe t a = true
    · simp [insertTok, h]
    · simp only [insertTok]
      rw [if_neg h]
      simp only [List.mem_cons, ih]
      tauto

theorem mem_sortTokens {x : Text} : ∀ {l : List Text},
    x ∈ sortTokens l ↔ x ∈ l := by
  intro l
  induction l with
  | nil => simp [sortTokens]
  | cons a l ih => simp [sortTokens, mem_insertTok, ih]

theorem pairwise_insertTok {t : Text} : ∀ {l : List Text},
    l.Pairwise (fun a b => lexLe a b = true) →
    (insertTok t l).Pairwise (fun a b => lexLe a b = true) := by
  intro l
  induction l with
  | nil => intro _; simp [insertTok]
  | cons a l ih =>
    intro h
    rw [List.pairwise_cons] at h
    by_cases hta : lexLe t a = true
    · rw [insertTok, if_pos hta, List.pairwise_cons]
      refine ⟨?_, List.pairwise_cons.mpr h⟩
      intro b hb
      rcases List.mem_cons.mp hb with rfl | hb
      · exact hta
      · exact lexLe_trans t a b hta (h.1 b hb)
    · rw [insertTok, if_neg hta, List.pairwise_cons]
      refine ⟨?_, ih h.2⟩
      intro b hb
      rcases mem_insertTok.mp hb with rfl | hb
      · rcases lexLe_total b a with h' | h'
        · exact absurd h' hta
        · exact h'
      · exact h.1 b hb

theorem pairwise_sortTokens (l : List Text) :
    (sortTokens l).Pairwise (fun a b => lexLe a b = true) := by
  induction l with
  | nil => simp [sortTokens]
  | cons a l ih => exact pairwise_insertTok ih

/-- C5: the run output ends with the report block — the `script-src` line
    first, then the `style-src` line, each the space-join of the sorted
    aggregate — the sort happening only in the rendered expression while
    the aggregates themselves stay unsorted; the rendered lists are
    `lexLe`-sorted permutations (same membership) of the aggregates, and
    `mainRun` is a pure function of the input files, so repeated runs on
    the same tree render identical lists. -/
theorem claim_C5_sorted_render (files : List FileInput) :
    mainRun files = introLine ::
      ((files.map (fun f => (process_html_file f).outLines)).flatten ++
       ["\n=== CSP Configuration ===".data,
        "\nscript-src hashes:".data,
        joinSpace (sortTokens (aggScripts files)),
        "\nstyle-src hashes:".data,
        joinSpace (sortTokens (aggStyles files)),
        []]) ∧
    (sortTokens (aggScripts files)).Pairwise (fun a b => lexLe a b = true) ∧
    (sortTokens (aggStyles files)).Pairwise (fun a b => lexLe a b = true) ∧
    (∀ t, t ∈ sortTokens (aggScripts files) ↔ t ∈ aggScripts files) ∧
    (∀ t, t ∈ sortTokens (aggStyles files) ↔ t ∈ aggStyles files) :=
  ⟨rfl, pairwise_sortTokens _, pairwise_sortTokens _,
   fun _ => mem_sortTokens, fun _ => mem_sortTokens⟩

/-! ## Claim C7 (read failures are local) -/

/-- C7: a file whose read fails contributes empty script and style lists
    and exactly one `Error reading ...` diagnostic naming the file and the
    cause; the aggregated sets of a run are unchanged by the failing file,
    the diagnostic appears in the run's output, and every run — with or
    without failures — still ends with the full final report. -/
theorem claim_C7_read_failure (pre post : List FileInput) (p e : Text) :
    process_html_file ⟨p, .error e⟩ = ⟨[], [], [errorLine p e]⟩ ∧
    aggScripts (pre ++ ⟨p, .error e⟩ :: post) = aggScripts (pre ++ post) ∧
    aggStyles (pre ++ ⟨p, .error e⟩ :: post) = aggStyles (pre ++ post) ∧
    errorLine p e ∈ mainRun (pre ++ ⟨p, .error e⟩ :: post) ∧
    (∀ files : List FileInput, ∃ body,
      mainRun files = introLine :: (body ++ reportLines files)) := by
  refine ⟨rfl, ?_, ?_, ?_, fun files => ⟨_, rfl⟩⟩
  · simp only [aggScripts, List.foldl_append, List.foldl_cons]
    rfl
  · simp only [aggStyles, List.foldl_append, List.foldl_cons]
    rfl
  · have hmem : errorLine p e ∈
        ((pre ++ ⟨p, .error e⟩ :: post).map
          (fun f => (process_html_file f).outLines)).flatten := by
      rw [List.mem_flatten]
      exact ⟨[errorLine p e],
        List.mem_map.mpr ⟨⟨p, .error e⟩, by simp, rfl⟩, by simp⟩
    exact List.mem_cons_of_mem _ (List.mem_append.mpr (Or.inl hmem))

/-! ## Claims C8 and C10 (the tree walk) -/

/-- Reachability of an output path by recursive descent: a `.html` file of
    the current listing is reached directly; a subdirectory's paths are
    reached only if the directory passes the pruning filter. -/
inductive Reaches : Text → FSEntries → Text → Prop where
  | fileHere {path n rest} (h : isHtmlName n = true) :
      Reaches path (.file n rest) (joinPath path n)
  | fileSkip {path n rest p} (h : Reaches path rest p) :
      Reaches path (.file n rest) p
  | dirEnter {path n c rest p} (hk : keepDir n = true)
      (h : Reaches (joinPath path n) c p) : Reaches path (.dir n c rest) p
  | dirSkip {path n c rest p} (h : Reaches path rest p) :
      Reaches path (.dir n c rest) p

theorem mem_find_html_iff (entries : FSEntries) : ∀ directory p : Text,
    p ∈ find_html_files directory entries ↔ Reaches directory entries p := by
  induction entries with
  | nil =>
    intro d p
    constructor
    · intro h
      simp [find_html_files, walkFiles, walkDirs] at h
    · intro h
      cases h
  | file n rest ih =>
    intro d p
    constructor
    · intro h
      simp only [find_html_files, walkFiles, walkDirs, List.append_assoc,
        List.mem_append] at h
      rcases h with h | h
      · by_cases hn : isHtmlName n = true
        · rw [if_pos hn] at h
          rcases List.mem_singleton.mp h with rfl
          exact Reaches.fileHere hn
        · rw [if_neg hn] at h
          cases h
      · exact Reaches.fileSkip ((ih d p).mp (List.mem_append.mpr h))
    · intro h
      cases h with
      | fileHere hn =>
        simp [find_html_files, walkFiles, hn]
      | fileSkip hh =>
        have := (ih d p).mpr hh
        simp only [find_html_files, List.mem_append] at this ⊢
        simp only [walkFiles, walkDirs, List.mem_append]
        tauto
  | dir n c rest ihc ihrest =>
    intro d p
    constructor
    · intro h
      simp only [find_html_files, walkFiles, walkDirs, List.append_assoc,
        List.mem_append] at h
      rcases h with h | h | h
      · exact Reaches.dirSkip ((ihrest d p).mp
          (List.mem_append.mpr (Or.inl h)))
      · by_cases hk : keepDir n = true
        · rw [if_pos hk] at h
          exact Reaches.dirEnter hk ((ihc (joinPath d n) p).mp h)
        · rw [if_neg hk] at h
          cases h
      · exact Reaches.dirSkip ((ihrest d p).mp
          (List.mem_append.mpr (Or.inr h)))
    · intro h
      cases h with
      | dirEnter hk hh =>
        have := (ihc (joinPath d n) p).mpr hh
        simp only [find_html_files, walkFiles, walkDirs, hk, if_true,
          List.append_assoc, List.mem_append] at this ⊢
        tauto
      | dirSkip hh =>
        have := (ihrest d p).mpr hh
        simp only [find_html_files, walkFiles, walkDirs, List.append_assoc,
          List.mem_append] at this ⊢
        tauto

/-- C8: the walker yields a path exactly when it is reachable by recursive
    descent: a `.html`-named file of the start directory's listing or,
    recursively, of the listing of a subdirectory whose name neither
    starts with `.` nor equals `node_modules`; no file under a pruned
    directory is ever yielded. -/
theorem claim_C8_walk (directory : Text) (entries : FSEntries) (p : Text) :
    p ∈ find_html_files directory entries ↔ Reaches directory entries p :=
  mem_find_html_iff entries directory p

/-- A plain file entry with this name at the top level of a listing. -/
def hasTopFile : FSEntries → Text → Bool
  | .nil, _ => false
  | .file m rest, n => m = n || hasTopFile rest n
  | .dir _ _ rest, n => hasTopFile rest n

theorem hasTopFile_walkFiles {root n : Text} : ∀ {entries : FSEntries},
    hasTopFile entries n = true → isHtmlName n = true →
    joinPath root n ∈ walkFiles root entries := by
  intro entries
  induction entries with
  | nil => intro h; simp [hasTopFile] at h
  | file m rest ih =>
    intro h hn
    simp only [hasTopFile, Bool.or_eq_true, decide_eq_true_eq] at h
    rcases h with rfl | h
    · simp [walkFiles, hn]
    · simp only [walkFiles, List.mem_append]
      exact Or.inr (ih h hn)
  | dir m c rest ihc ihrest =>
    intro h hn
    simp only [hasTopFile] at h
    simp only [walkFiles]
    exact ihrest h hn

/-- C10: the pruning filter applies only to subdirectory entries met
    during descent, never to the walk's starting directory: even when the
    root's own name starts with `.` or is `node_modules`, a `.html` file
    directly in its listing is still yielded, and every path reachable
    through its non-pruned subdirectories is still yielded. -/
theorem claim_C10_root_unpruned (root : Text) (entries : FSEntries) (n p : Text)
    (hroot : startsWithT ".".data root = true ∨ root = "node_modules".data) :
    (hasTopFile entries n = true → isHtmlName n = true →
      joinPath root n ∈ find_html_files root entries) ∧
    (Reaches root entries p → p ∈ find_html_files root entries) := by
  constructor
  · intro h hn
    exact List.mem_append.mpr (Or.inl (hasTopFile_walkFiles h hn))
  · intro h
    exact (mem_find_html_iff entries root p).mpr h

/-- C10 witness: walks rooted at `.git` and at `node_modules` still yield
    the `.html` files inside them. -/
theorem claim_C10_root_unpruned_witness :
    joinPath ".git".data "a.html".data ∈
      find_html_files ".git".data (.file "a.html".data .nil) ∧
    joinPath (joinPath "node_modules".data "sub".data) "b.html".data ∈
      find_html_files "node_modules".data
        (.dir "sub".data (.file "b.html".data .nil) .nil) :=
  ⟨(claim_C10_root_unpruned ".git".data (.file "a.html".data .nil)
      "a.html".data [] (Or.inl (by decide))).1 (by decide) (by decide),
   (claim_C10_root_unpruned "node_modules".data
      (.dir "sub".data (.file "b.html".data .nil) .nil) []
      (joinPath (joinPath "node_modules".data "sub".data) "b.html".data)
      (Or.inr rfl)).2
     (Reaches.dirEnter (by decide) (Reaches.fileHere (by decide)))⟩

/-! ## Claim C9 (shape of every aggregated token) -/

/-- A base64 output character: alphabet character or the `=` pad. -/
def b64orPad (ch : Char) : Bool := decide (ch ∈ b64chars) || ch = '='

/-- The exact token shape: 53 characters, `'sha256-` prefix, then 44
    characters over the base64 alphabet ending in `=`, then a closing
    single quote. -/
def tokenShape (t : Text) : Bool :=
  (t.length == 53) && startsWithT "'sha256-".data t &&
  ((t.drop 8).take 44).all b64orPad &&
  (((t.drop 8).take 44).getLast? == some '=') &&
  (t.getLast? == some '\'')

theorem wordBytes_lt (w : Nat) : ∀ b ∈ wordBytes w, b < 256 := by
  intro b hb
  simp only [wordBytes, List.mem_cons, List.not_mem_nil, or_false] at hb
  rcases hb with rfl | rfl | rfl | rfl <;> omega

theorem sha256_length (msg : List Nat) : (sha256 msg).length = 32 := by
  simp [sha256, wordBytes]

theorem sha256_lt (msg : List Nat) : ∀ b ∈ sha256 msg, b < 256 := by
  intro b hb
  simp only [sha256, List.mem_append] at hb
  rcases hb with ((((((hb | hb) | hb) | hb) | hb) | hb) | hb) | hb <;>
    exact wordBytes_lt _ b hb

theorem b64char_mem (n : Nat) : b64char n ∈ b64chars := by
  rw [b64char]
  by_cases h : n < b64chars.length
  · rw [List.getD_eq_getElem b64chars 'A' h]
    exact List.getElem_mem h
  · rw [List.getD_eq_default b64chars 'A' (Nat.le_of_not_lt h)]
    decide

theorem b64orPad_char (n : Nat) : b64orPad (b64char n) = true := by
  simp [b64orPad, b64char_mem n]

theorem b64encode_all (bs : List Nat) : (b64encode bs).all b64orPad = true := by
  have H : ∀ (k : Nat) (bs : List Nat), bs.length ≤ k →
      (b64encode bs).all b64orPad = true := by
    intro k
    induction k with
    | zero =>
      intro bs h
      rw [List.eq_nil_of_length_eq_zero (Nat.le_zero.mp h)]
      rfl
    | succ k ih =>
      intro bs h
      rcases bs with _ | ⟨b0, _ | ⟨b1, _ | ⟨b2, rest⟩⟩⟩
      · rfl
      · simp [b64encode, b64orPad_char, show b64orPad '=' = true from rfl]
      · simp [b64encode, b64orPad_char, show b64orPad '=' = true from rfl]
      · simp only [b64encode, List.all_cons, b64orPad_char, Bool.true_and]
        refine ih rest ?_
        simp only [List.length_cons] at h
        omega
  exact H bs.length bs le_rfl

theorem b64encode_len_last : ∀ (k : Nat) (bs : List Nat),
    bs.length = 3 * k + 2 →
    (b64encode bs).length = 4 * k + 4 ∧ (b64encode bs).getLast? = some '=' := by
  intro k
  induction k with
  | zero =>
    intro bs h
    rcases bs with _ | ⟨b0, bs⟩
    · simp at h
    rcases bs with _ | ⟨b1, bs⟩
    · simp at h
    rcases bs with _ | ⟨b2, bs⟩
    · simp [b64encode]
    · simp only [List.length_cons, List.length_nil] at h
      omega
  | succ k ih =>
    intro bs h
    rcases bs with _ | ⟨b0, bs⟩
    · simp at h
    rcases bs with _ | ⟨b1, bs⟩
    · simp only [List.length_cons, List.length_nil] at h
      omega
    rcases bs with _ | ⟨b2, bs⟩
    · simp only [List.length_cons, List.length_nil] at h
      omega
    have hlen : bs.length = 3 * k + 2 := by
      simp only [List.length_cons, List.length_nil] at h
      omega
    obtain ⟨ih1, ih2⟩ := ih bs hlen
    have hne : b64encode bs ≠ [] := by
      intro hnil
      rw [hnil] at ih1
      simp at ih1
    obtain ⟨x, xs, hX⟩ := List.exists_cons_of_ne_nil hne
    constructor
    · simp only [b64encode, List.length_cons, ih1]
      omega
    · rw [hX] at ih2
      simp only [b64encode, hX, List.getLast?_cons_cons]
      exact ih2

theorem startsWithT_append (pat rest : Text) :
    startsWithT pat (pat ++ rest) = true := by
  induction pat with
  | nil => rfl
  | cons p ps ih => simp [startsWithT, ih]

theorem tokenShape_hashToken (c : Text) : tokenShape (hashToken c) = true := by
  have hdig : (sha256 (utf8Encode c)).length = 3 * 10 + 2 := sha256_length _
  obtain ⟨hlen, hlast⟩ := b64encode_len_last 10 _ hdig
  have e44 : (b64encode (sha256 (utf8Encode c))).length = 44 := by
    rw [hlen]
  have htok : hashToken c =
      "'sha256-".data ++ (b64encode (sha256 (utf8Encode c)) ++ ['\'']) := rfl
  have h1 : (hashToken c).length = 53 := by
    rw [htok]
    simp only [List.length_append, e44]
    rfl
  have h2 : startsWithT "'sha256-".data (hashToken c) = true := by
    rw [htok]
    exact startsWithT_append _ _
  have h3 : ((hashToken c).drop 8).take 44 = b64encode (sha256 (utf8Encode c)) := by
    rw [htok]
    have e8 : ("'sha256-".data).length = 8 := rfl
    rw [← e8, List.drop_left, ← e44, List.take_left]
  have h4 : (hashToken c).getLast? = some '\'' := by
    rw [htok, ← List.append_assoc]
    exact List.getLast?_concat _
  simp [tokenShape, h1, h2, h3, h4, hlast, b64encode_all]

theorem process_scripts_token {t : Text} {f : FileInput}
    (h : t ∈ (process_html_file f).scripts) : ∃ c, t = hashToken c := by
  obtain ⟨p, rr⟩ := f
  cases rr with
  | error e => simp [process_html_file] at h
  | ok content =>
    obtain ⟨m, _, _, ht⟩ := mem_processText_scripts.mp h
    exact ⟨_, ht⟩

theorem process_styles_token {t : Text} {f : FileInput}
    (h : t ∈ (process_html_file f).styles) : ∃ c, t = hashToken c := by
  obtain ⟨p, rr⟩ := f
  cases rr with
  | error e => simp [process_html_file] at h
  | ok content =>
    obtain ⟨m, _, _, ht⟩ := mem_processText_styles.mp h
    exact ⟨_, ht⟩

/-- C9: every token in either aggregated set is a single quote, the
    literal `sha256-`, a 44-character base64 string ending in `=`, and a
    closing quote — 53 characters in all — because the SHA-256 digest is
    always 32 bytes and base64 maps 32 bytes to 44 characters with one
    pad character. -/
theorem claim_C9_token_shape (files : List FileInput) :
    ((aggScripts files) ++ (aggStyles files)).all tokenShape = true := by
  rw [List.all_eq_true]
  intro t ht
  rcases List.mem_append.mp ht with h | h
  · obtain ⟨f, _, hs⟩ := (mem_aggScripts files).mp h
    obtain ⟨c, rfl⟩ := process_scripts_token hs
    exact tokenShape_hashToken c
  · obtain ⟨f, _, hs⟩ := (mem_aggStyles files).mp h
    obtain ⟨c, rfl⟩ := process_styles_token hs
    exact tokenShape_hashToken c
